import Mathlib

/-!
Verification development for the RAG knowledge-assistant repository.

The Python sources under `src/services/rag/` and `src/eval/` are shallowly
embedded below: text is `List Char`, Python `str.rfind`/slicing/`glob`
become explicit list functions, floating-point similarity scores become `ℚ`
(no arithmetic is performed on them beyond comparison), and the two
file-writing effects of `build_index` become an explicit write trace on a
file-system state.
-/

namespace RagSpec

/-! ### Basic string helpers (Python slicing / substring search)

`pySlice text i j` is Python's `text[i:j]` for `0 ≤ i ≤ j` (the only case the
embedded code exercises).  `matchAt text pat p` is `text[p:p+len(pat)] == pat`.
`rfind text pat i j` is Python's `str.rfind(pat, i, j)`: the greatest `p` with
`i ≤ p`, `p + len(pat) ≤ j` and the pattern matching at `p`, else `none`.
-/

def pySlice (text : List Char) (i j : ℕ) : List Char :=
  (text.drop i).take (j - i)

def matchAt (text pat : List Char) (p : ℕ) : Bool :=
  decide ((text.drop p).take pat.length = pat)

def rfindAux (pred : ℕ → Bool) : ℕ → Option ℕ
  | 0 => none
  | n + 1 => if pred n then some n else rfindAux pred n

def rfind (text pat : List Char) (i j : ℕ) : Option ℕ :=
  rfindAux (fun p => decide (i ≤ p) && matchAt text pat p && decide (p + pat.length ≤ j)) j

/-! ### `split_text` (src/services/rag/chunk.py, lines 9–58)

The Python loop body first looks for a break point in `text[search_start:end]`
with priority `"\n\n"` > `"\n"` > `" "` (the boundary is just past the found
delimiter); `findBoundary` embeds lines 29–44.  The loop itself is embedded
with explicit fuel, one unit per iteration: `none` models the Python loop
still running after `fuel` iterations (which for a terminating run never
happens — see the termination theorem).
-/

def findBoundary (text : List Char) (ss e : ℕ) : Option ℕ :=
  match rfind text ['\n', '\n'] ss e with
  | some p => some (p + 2)
  | none =>
    match rfind text ['\n'] ss e with
    | some p => some (p + 1)
    | none =>
      match rfind text [' '] ss e with
      | some p => some (p + 1)
      | none => none

def splitTextAux (text : List Char) (cs co : ℕ) : ℕ → ℕ → Option (List (List Char))
  | fuel, start =>
    if start < text.length then
      match fuel with
      | 0 => none
      | fuel + 1 =>
        let e := start + cs
        if text.length ≤ e then
          some [text.drop start]
        else
          match findBoundary text (max start (e - co)) e with
          | some b => (splitTextAux text cs co fuel b).map (fun rest => pySlice text start b :: rest)
          | none =>
            (splitTextAux text cs co fuel (e - co)).map (fun rest => pySlice text start e :: rest)
    else
      some []

def split_text (text : List Char) (cs co : ℕ) : Option (List (List Char)) :=
  if text = [] then some [] else splitTextAux text cs co text.length 0

/-- One loop iteration's update of `start` (lines 21–56 of chunk.py):
`none` when the loop is about to stop (either `start ≥ len(text)` or the
final chunk `text[start:]` is emitted and the loop breaks), otherwise the
next value of `start`. -/
def nextStart (text : List Char) (cs co : ℕ) (start : ℕ) : Option ℕ :=
  if start < text.length then
    let e := start + cs
    if text.length ≤ e then none
    else
      match findBoundary text (max start (e - co)) e with
      | some b => some b
      | none => some (e - co)
  else none

/-! ### Sections and chunk records (src/services/rag/chunk.py, lines 60–130)

`extract_sections` scans the `'\n'`-split lines; a line matching the Python
regex `^(#+)\s+(.*)` starts a new section (`headerMatch` embeds that regex:
one or more `#`, then one or more whitespace characters, then the rest of the
line, which is then `strip`ped), and the previous section is appended when its
accumulated line list is non-empty, with content `'\n'.join(lines).strip()`.
`pySpaceB` is Python's `\s` / `str.strip` whitespace on the ASCII range the
corpus uses.
-/

def pySpaceB (c : Char) : Bool :=
  c = ' ' || c = '\t' || c = '\n' || c = '\r' || c = '\x0b' || c = '\x0c'

def pyStrip (l : List Char) : List Char :=
  ((l.dropWhile pySpaceB).reverse.dropWhile pySpaceB).reverse

def headerMatch (line : List Char) : Option (ℕ × List Char) :=
  let hashes := line.takeWhile (fun c => c = '#')
  let rest := line.drop hashes.length
  let ws := rest.takeWhile pySpaceB
  if hashes.length = 0 ∨ ws.length = 0 then none
  else some (hashes.length, pyStrip (rest.drop ws.length))

structure MDSection where
  title : List Char
  content : List Char
  level : ℕ
deriving DecidableEq

def joinLines (ls : List (List Char)) : List Char :=
  List.intercalate ['\n'] ls

def introTitle : List Char := "Introduction".data

def extract_sections_go : List (List Char) → List Char → List (List Char) → ℕ → List MDSection
  | [], title, content, level =>
    if content ≠ [] then [⟨title, pyStrip (joinLines content), level⟩] else []
  | line :: rest, title, content, level =>
    match headerMatch line with
    | some (lvl, t) =>
      (if content ≠ [] then [⟨title, pyStrip (joinLines content), level⟩] else []) ++
        extract_sections_go rest t [] lvl
    | none => extract_sections_go rest title (content ++ [line]) level

def extract_sections (text : List Char) : List MDSection :=
  extract_sections_go (text.splitOn '\n') introTitle [] 0

/-- The metadata fields of a chunk that `create_chunks` fills in
(lines 121–126 of chunk.py); `source` and `created_at` are copied through
from the document metadata unchanged and play no role in any claim, so only
`doc_id` is carried. -/
structure ChunkMeta where
  doc_id : List Char
  section_title : List Char
  chunk_id : List Char
  original_text : List Char
deriving DecidableEq

structure Chunk where
  content : List Char
  metadata : ChunkMeta
deriving DecidableEq

def sectionHeaderText (title : List Char) : List Char :=
  "Section: ".data ++ title ++ ['\n']

/-- The chunks one section contributes (the inner loop of `create_chunks`,
lines 115–128): chunk `i` of the section gets
`chunk_id = f"{doc_id}_{title[:10]}_{i}"`, content prefixed with
`"Section: {title}\n"` unless the title is `"Introduction"`, and the raw
split text recorded as `original_text`. -/
def sectionChunks (doc_id : List Char) (s : MDSection) (rcs : List (List Char)) : List Chunk :=
  rcs.enum.map (fun irc =>
    { content := if s.title ≠ introTitle then sectionHeaderText s.title ++ irc.2 else irc.2
      metadata :=
        { doc_id := doc_id
          section_title := s.title
          chunk_id := doc_id ++ '_' :: (s.title.take 10 ++ '_' :: (Nat.repr irc.1).data)
          original_text := irc.2 } })

def create_chunks_go (doc_id : List Char) (cs co : ℕ) : List MDSection → Option (List Chunk)
  | [] => some []
  | s :: rest =>
    if s.content = [] then create_chunks_go doc_id cs co rest
    else
      match split_text s.content cs co, create_chunks_go doc_id cs co rest with
      | some rcs, some tail => some (sectionChunks doc_id s rcs ++ tail)
      | _, _ => none

def create_chunks (text : List Char) (doc_id : List Char) (cs co : ℕ) : Option (List Chunk) :=
  create_chunks_go doc_id cs co (extract_sections text)

/-- The chunk list `build_index` (src/services/rag/index.py, lines 31–43)
operates on: `load_processed_data` concatenates, document by document, the
chunk lists the ingestion step persisted, i.e. the `create_chunks` output of
each document's text. -/
def build_index_chunks (docs : List (List Char × List Char)) (cs co : ℕ) :
    Option (List Chunk) :=
  match docs with
  | [] => some []
  | (text, doc_id) :: rest =>
    match create_chunks text doc_id cs co, build_index_chunks rest cs co with
    | some cl, some tail => some (cl ++ tail)
    | _, _ => none

/-! ### Reranker (src/services/rag/rerank.py, lines 13–25)

A chunk entering `rerank` is a dict with a `content` field; `pos` stands for
the identity of that dict (every input dict is a distinct object), which is
what the claim about stable, input-order-preserving ties is about.  The
cross-encoder is an oracle `model`; the returned `Bool` records whether
`self.model.predict` was invoked.  Python's `list.sort(key=..., reverse=True)`
is a stable descending sort, which is exactly
`List.insertionSort (fun x y => y.rerank_score ≤ x.rerank_score)`.
-/

structure PChunk where
  content : List Char
  pos : ℕ
deriving DecidableEq

structure RankedChunk where
  chunk : PChunk
  rerank_score : ℚ
deriving DecidableEq

/-- The sort key of line 24 of rerank.py: descending `rerank_score`. -/
def rerankDesc (x y : RankedChunk) : Prop :=
  y.rerank_score ≤ x.rerank_score

instance : DecidableRel rerankDesc := fun x y =>
  inferInstanceAs (Decidable (y.rerank_score ≤ x.rerank_score))

instance : IsTotal RankedChunk rerankDesc :=
  ⟨fun a b => le_total b.rerank_score a.rerank_score⟩

instance : IsTrans RankedChunk rerankDesc :=
  ⟨fun _ _ _ h1 h2 => le_trans h2 h1⟩

/-- The order a stable descending sort actually realizes on distinct input
positions: strictly greater score first, ties in input-position order. -/
def rerankLex (x y : RankedChunk) : Prop :=
  y.rerank_score < x.rerank_score ∨
    (x.rerank_score = y.rerank_score ∧ x.chunk.pos < y.chunk.pos)

def rerank (model : List Char → List Char → ℚ) (query : List Char)
    (chunks : List PChunk) (top_k : ℕ) : List RankedChunk × Bool :=
  if chunks = [] then ([], false)
  else
    let pairs := chunks.map (fun c => (query, c.content))
    let scores := pairs.map (fun p => model p.1 p.2)
    let scored := (chunks.zip scores).map (fun cs => RankedChunk.mk cs.1 cs.2)
    ((List.insertionSort rerankDesc scored).take top_k, true)

/-! ### Retriever (src/services/rag/retrieve.py, lines 26–47)

The FAISS call `self.index.search(query_embedding, top_k)` is external to the
repository; its output shape is modelled from the spec below.  Lines 40–46
are embedded as `retrieve`: walk the zipped (score, index) pairs, skip the
sentinel `-1`, and join each surviving index back to the doc-store list by
position, attaching the raw score.
-/

structure Retrieved (α : Type) where
  chunk : α
  score : ℚ
deriving DecidableEq

def retrieve {α : Type} (chunks : List α) (scores : List ℚ) (indices : List ℤ) :
    List (Retrieved α) :=
  (scores.zip indices).filterMap (fun si =>
    if si.2 = -1 then none
    else (chunks[si.2.toNat]?).map (fun c => ⟨c, si.1⟩))

/-- Modelled from the spec: the FAISS search call (external library, not in
this repository's sources) returns exactly `top_k` scores and `top_k`
indices; each index is either a valid ordinal position below the number `n`
of stored vectors or the sentinel `-1` returned when fewer than `top_k`
vectors exist; scores come back in descending order. -/
def FaissSearchOutput (n top_k : ℕ) (scores : List ℚ) (indices : List ℤ) : Prop :=
  scores.length = top_k ∧ indices.length = top_k ∧
    (∀ i ∈ indices, i = -1 ∨ (0 ≤ i ∧ i.toNat < n)) ∧
    scores.Pairwise (fun a b => b ≤ a)

/-! ### Evaluation metrics (src/eval/metrics.py)

Python's `gid in rid` substring test becomes `containsSub rid gid`; the float
result becomes `ℚ`.
-/

def containsSub (s pat : List Char) : Bool :=
  (List.range (s.length + 1)).any (fun p => matchAt s pat p)

def calculate_recall (retrieved_ids gold_ids : List (List Char)) : ℚ :=
  if gold_ids = [] then 0
  else
    ((retrieved_ids.countP
        (fun rid => gold_ids.any (fun gid => containsSub rid gid)) : ℚ)) / (gold_ids.length : ℚ)

/-! ### Ingestion discovery and per-file dispatch (src/services/rag/ingest.py)

`ingest` (lines 68–74) discovers files with `glob` patterns
`['*.pdf', '*.html', '*.txt', '*.md']` applied non-recursively to the names
directly under `input_dir`; a `*`-pattern `*.ext` matches exactly the names
ending in `.ext`.  `process_file` (lines 37–50) dispatches on the lowercased
`os.path.splitext` extension.
-/

def endsWithB (s suf : List Char) : Bool :=
  decide (suf.length ≤ s.length) && decide (s.drop (s.length - suf.length) = suf)

def globMatch : List Char → List Char → Bool
  | '*' :: suffix, file => endsWithB file suffix
  | pat, file => decide (pat = file)

def ingestPatterns : List (List Char) :=
  ["*.pdf".data, "*.html".data, "*.txt".data, "*.md".data]

def ingestDiscovers (files : List (List Char)) : List (List Char) :=
  ingestPatterns.foldl (fun acc pat => acc ++ files.filter (fun f => globMatch pat f)) []

inductive FileKind
  | pdf
  | html
  | text
  | unsupported
deriving DecidableEq

/-- Python `os.path.splitext(filename)[1]`: the part of the name from the last
dot on (empty when the name has no dot past its leading dots).  After it the
code lowercases, which `extOf` already feeds through `Char.toLower`. -/
def extOf (filename : List Char) : List Char :=
  match rfind filename ['.'] 1 filename.length with
  | some p => (filename.drop p).map Char.toLower
  | none => []

def process_file_kind (filename : List Char) : FileKind :=
  let ext := extOf filename
  if ext = ".pdf".data then .pdf
  else if ext = ".html".data ∨ ext = ".htm".data then .html
  else if ext = ".txt".data ∨ ext = ".md".data then .text
  else .unsupported

/-! ### `build_index` persisted-file effects (src/services/rag/index.py, lines 31–73)

Only two statements of `build_index` touch the persisted pair the retriever
reads: line 66 writes `vector.index` and lines 70–71 write `doc_store.pkl`,
both directly at their final paths (no staging paths, no rename).  The pair
of persisted files is modelled as a two-field state, the build as the ordered
trace of its writes, and a failure part-way through the build as executing
only a proper prefix of that trace.
-/

structure FsState where
  vectorIndex : ℕ
  docStore : ℕ
deriving DecidableEq

inductive BuildStep
  | writeVectorIndex
  | writeDocStore
deriving DecidableEq

def buildIndexSteps : List BuildStep := [.writeVectorIndex, .writeDocStore]

def applyStep (newIdx newStore : ℕ) : FsState → BuildStep → FsState
  | s, .writeVectorIndex => { s with vectorIndex := newIdx }
  | s, .writeDocStore => { s with docStore := newStore }

/-- The persisted state after the first `k` write effects of `build_index`
(`k < 2` models a build that failed before completing). -/
def buildIndexRun (newIdx newStore : ℕ) (s0 : FsState) (k : ℕ) : FsState :=
  (buildIndexSteps.take k).foldl (applyStep newIdx newStore) s0

/-- No `'\n'` and no `' '` occurs in `text` at a position of `[lo, hi)`:
what a fully failed boundary search in that window establishes. -/
def noDelim (text : List Char) (lo hi : ℕ) : Prop :=
  ∀ p, lo ≤ p → p < hi → ∀ c, text[p]? = some c → c ≠ '\n' ∧ c ≠ ' '

/-- Reassemble chunks, deleting a prescribed number of duplicated characters
from the front of each chunk after the first — the specification-side
description of undoing the overlaps `split_text` introduces. -/
def assemble : List (List Char) → List ℕ → List Char
  | [], _ => []
  | c :: rest, os => c ++ (List.zipWith (fun o ch => ch.drop o) os rest).flatten

/-! ## Theorems -/

theorem rfindAux_eq_some {pred : ℕ → Bool} :
    ∀ {n p : ℕ}, rfindAux pred n = some p → pred p = true ∧ p < n := by
  intro n
  induction n with
  | zero => intro p h; simp [rfindAux] at h
  | succ n ih =>
    intro p h
    rw [rfindAux] at h
    by_cases hp : pred n
    · rw [if_pos hp] at h
      cases h
      exact ⟨hp, Nat.lt_succ_self n⟩
    · rw [if_neg hp] at h
      obtain ⟨h1, h2⟩ := ih h
      exact ⟨h1, Nat.lt_succ_of_lt h2⟩

theorem rfindAux_eq_none {pred : ℕ → Bool} :
    ∀ {n : ℕ}, rfindAux pred n = none → ∀ p, p < n → pred p = false := by
  intro n
  induction n with
  | zero => intro _ p hp; omega
  | succ n ih =>
    intro h p hp
    rw [rfindAux] at h
    by_cases hn : pred n
    · rw [if_pos hn] at h; cases h
    · rw [if_neg hn] at h
      rcases Nat.lt_succ_iff_lt_or_eq.mp hp with h' | h'
      · exact ih h p h'
      · subst h'; exact Bool.of_not_eq_true hn

theorem rfind_eq_some {text pat : List Char} {i j p : ℕ}
    (h : rfind text pat i j = some p) :
    i ≤ p ∧ matchAt text pat p = true ∧ p + pat.length ≤ j := by
  obtain ⟨hpred, _⟩ := rfindAux_eq_some h
  simp only [Bool.and_eq_true, decide_eq_true_eq] at hpred
  exact ⟨hpred.1.1, hpred.1.2, hpred.2⟩

theorem rfind_eq_none {text pat : List Char} {i j : ℕ}
    (h : rfind text pat i j = none) :
    ∀ p, i ≤ p → 0 < pat.length → p + pat.length ≤ j → matchAt text pat p = false := by
  intro p hip hlen hj
  have hp : p < j := by omega
  have := rfindAux_eq_none h p hp
  simp only [Bool.and_eq_true, decide_eq_true_eq] at this
  by_cases hm : matchAt text pat p
  · exfalso
    rw [Bool.and_eq_false_iff, Bool.and_eq_false_iff] at this
    rcases this with (h' | h') | h'
    · simp only [decide_eq_false_iff_not] at h'; omega
    · exact absurd hm (by simp [h'])
    · simp only [decide_eq_false_iff_not] at h'; omega
  · exact Bool.of_not_eq_true hm

theorem matchAt_head {text : List Char} {c : Char} {cr : List Char} {p : ℕ}
    (h : matchAt text (c :: cr) p = true) : text[p]? = some c := by
  unfold matchAt at h
  rw [decide_eq_true_eq] at h
  cases hdrop : text.drop p with
  | nil => rw [hdrop] at h; simp at h
  | cons a l' =>
    rw [hdrop] at h
    simp only [List.length_cons, List.take_succ_cons, List.cons.injEq] at h
    have hhead : (text.drop p).head? = some c := by rw [hdrop, h.1]; rfl
    rwa [List.head?_drop] at hhead

theorem matchAt_single {text : List Char} {ch : Char} {p : ℕ} :
    matchAt text [ch] p = true ↔ text[p]? = some ch := by
  constructor
  · exact matchAt_head
  · intro h
    unfold matchAt
    rw [decide_eq_true_eq]
    have hhead : (text.drop p).head? = some ch := by rwa [List.head?_drop]
    cases hdrop : text.drop p with
    | nil => rw [hdrop] at hhead; cases hhead
    | cons a l' =>
      rw [hdrop] at hhead
      simp only [List.head?_cons, Option.some.injEq] at hhead
      simp [hdrop, hhead]

theorem findBoundary_eq_some {text : List Char} {ss e b : ℕ}
    (h : findBoundary text ss e = some b) :
    ss < b ∧ b ≤ e ∧
      ∃ p c, ss ≤ p ∧ p < e ∧ p < b ∧ text[p]? = some c ∧ (c = '\n' ∨ c = ' ') := by
  unfold findBoundary at h
  cases h2 : rfind text ['\n', '\n'] ss e with
  | some p =>
    rw [h2] at h
    cases h
    obtain ⟨hip, hm, hj⟩ := rfind_eq_some h2
    simp only [List.length_cons, List.length_nil] at hj
    exact ⟨by omega, by omega, p, '\n', hip, by omega, by omega, matchAt_head hm, Or.inl rfl⟩
  | none =>
    rw [h2] at h
    cases h1 : rfind text ['\n'] ss e with
    | some p =>
      rw [h1] at h
      cases h
      obtain ⟨hip, hm, hj⟩ := rfind_eq_some h1
      simp only [List.length_cons, List.length_nil] at hj
      exact ⟨by omega, by omega, p, '\n', hip, by omega, by omega, matchAt_head hm, Or.inl rfl⟩
    | none =>
      rw [h1] at h
      cases h0 : rfind text [' '] ss e with
      | some p =>
        rw [h0] at h
        cases h
        obtain ⟨hip, hm, hj⟩ := rfind_eq_some h0
        simp only [List.length_cons, List.length_nil] at hj
        exact ⟨by omega, by omega, p, ' ', hip, by omega, by omega, matchAt_head hm, Or.inr rfl⟩
      | none => rw [h0] at h; cases h

theorem findBoundary_eq_none {text : List Char} {ss e : ℕ}
    (h : findBoundary text ss e = none) : noDelim text ss e := by
  unfold findBoundary at h
  intro p hsp hpe c hc
  cases h2 : rfind text ['\n', '\n'] ss e with
  | some q => rw [h2] at h; cases h
  | none =>
    rw [h2] at h
    cases h1 : rfind text ['\n'] ss e with
    | some q => rw [h1] at h; cases h
    | none =>
      rw [h1] at h
      cases h0 : rfind text [' '] ss e with
      | some q => rw [h0] at h; cases h
      | none =>
        have hnl := rfind_eq_none h1 p hsp (by simp) (by simpa using hpe)
        have hsp' := rfind_eq_none h0 p hsp (by simp) (by simpa using hpe)
        constructor
        · intro hcnl
          subst hcnl
          rw [show matchAt text ['\n'] p = true from matchAt_single.mpr hc] at hnl
          cases hnl
        · intro hcsp
          subst hcsp
          rw [show matchAt text [' '] p = true from matchAt_single.mpr hc] at hsp'
          cases hsp'

theorem splitTextAux_isSome {text : List Char} {cs co : ℕ} (hcs : co < cs) :
    ∀ fuel start, text.length ≤ start + fuel →
      (splitTextAux text cs co fuel start).isSome := by
  intro fuel
  induction fuel with
  | zero =>
    intro start hlen
    rw [splitTextAux]
    rw [if_neg (by omega)]
    rfl
  | succ fuel ih =>
    intro start hlen
    rw [splitTextAux]
    by_cases hstart : start < text.length
    · rw [if_pos hstart]
      simp only
      by_cases hend : text.length ≤ start + cs
      · rw [if_pos hend]; rfl
      · rw [if_neg hend]
        cases hfb : findBoundary text (max start (start + cs - co)) (start + cs) with
        | some b =>
          obtain ⟨hssb, _, _⟩ := findBoundary_eq_some hfb
          have hb : start < b := lt_of_le_of_lt (le_max_left _ _) hssb
          simpa using ih b (by omega)
        | none =>
          simpa using ih (start + cs - co) (by omega)
    · rw [if_neg hstart]; rfl

/-- C2: `chunk_id` is not unique across the corpus at index-build time, and
the collision is silent.  A single document `"d"` with two sections titled
`"Background A"` and `"Background B"` — the same 10-character prefix
`"Background"` — produces two distinct chunks (original texts `"x"` and
`"y"`) that both carry `chunk_id = "d_Background_0"`, and `build_index`
loads both without complaint. -/
theorem chunk_id_collision :
    ((build_index_chunks [("# Background A\nx\n# Background B\ny".data, "d".data)] 1000 200).getD
          []).map (fun c => c.metadata.chunk_id) =
        ["d_Background_0".data, "d_Background_0".data] ∧
      ((build_index_chunks [("# Background A\nx\n# Background B\ny".data, "d".data)] 1000
              200).getD []).map (fun c => c.metadata.original_text) =
        ["x".data, "y".data] ∧
      (build_index_chunks [("# Background A\nx\n# Background B\ny".data, "d".data)] 1000
          200).isSome := by
  decide

theorem sectionChunks_content {doc_id : List Char} {s : MDSection} {rcs : List (List Char)}
    {c : Chunk} (h : c ∈ sectionChunks doc_id s rcs) :
    c.metadata.section_title = s.title ∧
      (c.metadata.section_title ≠ introTitle →
        c.content = sectionHeaderText c.metadata.section_title ++ c.metadata.original_text) := by
  unfold sectionChunks at h
  obtain ⟨irc, _, rfl⟩ := List.mem_map.mp h
  refine ⟨rfl, ?_⟩
  intro hne
  dsimp only at hne ⊢
  rw [if_pos hne]

theorem create_chunks_go_headers {doc_id : List Char} {cs co : ℕ} :
    ∀ sections chunks, create_chunks_go doc_id cs co sections = some chunks →
      ∀ c ∈ chunks, c.metadata.section_title ≠ introTitle →
        c.content = sectionHeaderText c.metadata.section_title ++ c.metadata.original_text := by
  intro sections
  induction sections with
  | nil =>
    intro chunks h c hc
    have : ([] : List Chunk) = chunks := Option.some.inj h
    subst this
    cases hc
  | cons s rest ih =>
    intro chunks h c hc hne
    rw [create_chunks_go] at h
    by_cases hempty : s.content = []
    · rw [if_pos hempty] at h
      exact ih chunks h c hc hne
    · rw [if_neg hempty] at h
      cases hsp : split_text s.content cs co with
      | none =>
        rw [hsp] at h
        exact Option.noConfusion h
      | some rcs =>
        rw [hsp] at h
        cases hrec : create_chunks_go doc_id cs co rest with
        | none =>
          rw [hrec] at h
          exact Option.noConfusion h
        | some tail =>
          rw [hrec] at h
          dsimp only at h
          have : sectionChunks doc_id s rcs ++ tail = chunks := Option.some.inj h
          subst this
          rcases List.mem_append.mp hc with hmem | hmem
          · exact (sectionChunks_content hmem).2 hne
          · exact ih tail hrec c hmem hne

/-- C8: `create_chunks` on empty input returns no chunks, and every chunk
whose section title is not `"Introduction"` stores exactly
`"Section: " ++ section_title ++ "\n" ++ original_text` as its content,
while the metadata keeps the un-prefixed split text as `original_text` and
the bare title as `section_title`. -/
theorem create_chunks_empty_and_headers (text doc_id : List Char) (cs co : ℕ)
    (chunks : List Chunk) (h : create_chunks text doc_id cs co = some chunks) :
    create_chunks [] doc_id cs co = some [] ∧
      ∀ c ∈ chunks, c.metadata.section_title ≠ introTitle →
        c.content = sectionHeaderText c.metadata.section_title ++ c.metadata.original_text :=
  ⟨rfl, create_chunks_go_headers _ chunks h⟩

/-- Witness for the `create_chunks` theorem on the one-section document
`"# Ti\nbody"`. -/
theorem create_chunks_empty_and_headers_witness :
    create_chunks "# Ti\nbody".data "d".data 1000 200 =
        some [⟨"Section: Ti\nbody".data, ⟨"d".data, "Ti".data, "d_Ti_0".data, "body".data⟩⟩] ∧
      (create_chunks [] "d".data 1000 200 = some [] ∧
        ∀ c ∈ [(⟨"Section: Ti\nbody".data,
                ⟨"d".data, "Ti".data, "d_Ti_0".data, "body".data⟩⟩ : Chunk)],
          c.metadata.section_title ≠ introTitle →
            c.content = sectionHeaderText c.metadata.section_title ++ c.metadata.original_text) :=
  ⟨by decide,
    create_chunks_empty_and_headers "# Ti\nbody".data "d".data 1000 200 _ (by decide)⟩

/-- C6 (counterexample): `build_index` is not atomic.  With the old persisted
pair holding contents `0`/`0` and the new build producing contents `1`/`1`, a
failure after the first write effect (`faiss.write_index` at line 66 of
index.py) but before the doc-store write (lines 70–71) leaves the pair
readers use changed — the new `vector.index` next to the old `doc_store` —
refuting the claim that any failure after starting leaves the previously
persisted files unchanged as a consistent pair. -/
theorem build_index_fails_mid_write :
    1 < buildIndexSteps.length ∧
      buildIndexRun 1 1 ⟨0, 0⟩ 1 = ⟨1, 0⟩ ∧
      buildIndexRun 1 1 ⟨0, 0⟩ 1 ≠ ⟨0, 0⟩ := by
  decide

/-- C6 (amended): `build_index` writes the new `vector.index` and then the new
`doc_store.pkl` directly at the final paths readers use, with no staging or
atomic replacement: a failure before the first write leaves the old pair, a
failure between the two writes leaves the new index paired with the old doc
store, and only a run of both writes yields the new pair. -/
theorem build_index_write_order (newIdx newStore : ℕ) (s0 : FsState) :
    buildIndexRun newIdx newStore s0 0 = s0 ∧
      buildIndexRun newIdx newStore s0 1 = ⟨newIdx, s0.docStore⟩ ∧
      buildIndexRun newIdx newStore s0 2 = ⟨newIdx, newStore⟩ :=
  ⟨rfl, rfl, rfl⟩

/-- C7: the three example evaluations of `calculate_recall` hold, but the
function is not the fraction of gold items matched: with both retrieved ids
containing the single gold id `"doc1"`, it counts each retrieved id and
returns `2`, exceeding `1` — the code divides the number of *matching
retrieved ids* by the number of gold ids. -/
theorem calculate_recall_exceeds_one :
    calculate_recall ["doc1_chunk1".data, "doc2_chunk1".data] ["doc1".data] = 1 ∧
      calculate_recall ["doc1_chunk1".data, "doc2_chunk1".data] ["doc3".data] = 0 ∧
      calculate_recall ["doc1_chunk1".data, "doc2_chunk1".data] [] = 0 ∧
      calculate_recall ["doc1_chunk0".data, "doc1_chunk1".data] ["doc1".data] = 2 ∧
      1 < calculate_recall ["doc1_chunk0".data, "doc1_chunk1".data] ["doc1".data] := by
  have h1 : (["doc1_chunk1".data, "doc2_chunk1".data].countP
      (fun rid => ["doc1".data].any fun gid => containsSub rid gid)) = 1 := by decide
  have h3 : (["doc1_chunk1".data, "doc2_chunk1".data].countP
      (fun rid => ["doc3".data].any fun gid => containsSub rid gid)) = 0 := by decide
  have h2 : (["doc1_chunk0".data, "doc1_chunk1".data].countP
      (fun rid => ["doc1".data].any fun gid => containsSub rid gid)) = 2 := by decide
  have e2 : calculate_recall ["doc1_chunk0".data, "doc1_chunk1".data] ["doc1".data] = 2 := by
    unfold calculate_recall
    rw [if_neg (by decide), h2]
    norm_num
  refine ⟨?_, ?_, ?_, e2, ?_⟩
  · unfold calculate_recall
    rw [if_neg (by decide), h1]
    norm_num
  · unfold calculate_recall
    rw [if_neg (by decide), h3]
    norm_num
  · unfold calculate_recall
    rw [if_pos rfl]
  · rw [e2]
    norm_num

/-- C9: the discovery loop of `ingest` (line 72 of ingest.py) globs only
`*.pdf`, `*.html`, `*.txt`, `*.md` — it never matches a `.htm` file, so a
directory holding exactly `page.htm` yields no discovered files, even though
`process_file`'s own extension dispatch (line 43) treats `.htm` as HTML. -/
theorem ingest_never_discovers_htm :
    ingestDiscovers ["page.htm".data] = [] ∧
      process_file_kind "page.htm".data = FileKind.html ∧
      ingestDiscovers ["doc.pdf".data, "page.htm".data, "a.html".data, "b.txt".data, "c.md".data] =
        ["doc.pdf".data, "a.html".data, "b.txt".data, "c.md".data] := by
  decide

/-- C3: for `0 < chunk_overlap < chunk_size` the splitter terminates on every
input.  Per loop iteration (`nextStart`): the start position strictly
increases; when a boundary is found in the search window the next start is
that boundary, at least `start + 1`; on a forced cut it is exactly
`start + (chunk_size - chunk_overlap)`.  Consequently `split_text` (run with
one unit of fuel per character, enough for any terminating run) returns a
result even on pathological input with no newline or space in a window. -/
theorem split_text_terminates (text : List Char) (cs co : ℕ) (hco : 0 < co) (hcs : co < cs) :
    (∀ start s', nextStart text cs co start = some s' →
        start < s' ∧
          (∀ b, findBoundary text (max start (start + cs - co)) (start + cs) = some b →
              s' = b ∧ start + 1 ≤ b) ∧
          (findBoundary text (max start (start + cs - co)) (start + cs) = none →
              s' = start + (cs - co))) ∧
      (split_text text cs co).isSome := by
  constructor
  · intro start s' h
    unfold nextStart at h
    by_cases hstart : start < text.length
    · rw [if_pos hstart] at h
      dsimp only at h
      by_cases hend : text.length ≤ start + cs
      · rw [if_pos hend] at h
        exact Option.noConfusion h
      · rw [if_neg hend] at h
        cases hfb : findBoundary text (max start (start + cs - co)) (start + cs) with
        | some b =>
          rw [hfb] at h
          have hsb : b = s' := Option.some.inj h
          obtain ⟨hssb, hbe, _⟩ := findBoundary_eq_some hfb
          have hb : start < b := lt_of_le_of_lt (le_max_left _ _) hssb
          refine ⟨by omega, ?_, ?_⟩
          · intro b' hb'
            have : b = b' := Option.some.inj hb'
            omega
          · intro hnone
            exact Option.noConfusion hnone
        | none =>
          rw [hfb] at h
          have hsb : start + cs - co = s' := Option.some.inj h
          refine ⟨by omega, ?_, ?_⟩
          · intro b' hb'
            exact Option.noConfusion hb'
          · intro _
            omega
    · rw [if_neg hstart] at h
      exact Option.noConfusion h
  · unfold split_text
    by_cases htext : text = []
    · rw [if_pos htext]; rfl
    · rw [if_neg htext]
      exact splitTextAux_isSome hcs text.length 0 (by omega)

theorem splitTextAux_chunk_bounds {text : List Char} {cs co : ℕ} (hcs : co < cs) :
    ∀ fuel start chunks, splitTextAux text cs co fuel start = some chunks →
      ∀ c ∈ chunks, c ≠ [] ∧ c.length ≤ cs := by
  intro fuel
  induction fuel with
  | zero =>
    intro start chunks h c hc
    rw [splitTextAux] at h
    by_cases hstart : start < text.length
    · rw [if_pos hstart] at h
      exact Option.noConfusion h
    · rw [if_neg hstart] at h
      have : ([] : List (List Char)) = chunks := Option.some.inj h
      subst this
      cases hc
  | succ fuel ih =>
    intro start chunks h c hc
    rw [splitTextAux] at h
    by_cases hstart : start < text.length
    · rw [if_pos hstart] at h
      dsimp only at h
      by_cases hend : text.length ≤ start + cs
      · rw [if_pos hend] at h
        have : [text.drop start] = chunks := Option.some.inj h
        subst this
        rcases List.mem_singleton.mp hc with rfl
        constructor
        · intro hnil
          have hlen0 : (text.drop start).length = 0 := by rw [hnil]; rfl
          rw [List.length_drop] at hlen0
          omega
        · rw [List.length_drop]; omega
      · rw [if_neg hend] at h
        cases hfb : findBoundary text (max start (start + cs - co)) (start + cs) with
        | some b =>
          rw [hfb] at h
          dsimp only at h
          cases hrest : splitTextAux text cs co fuel b with
          | none =>
            rw [hrest] at h
            exact Option.noConfusion h
          | some rest =>
            rw [hrest] at h
            simp only [Option.map_some'] at h
            have : pySlice text start b :: rest = chunks := Option.some.inj h
            subst this
            obtain ⟨hssb, hbe, _⟩ := findBoundary_eq_some hfb
            have hb : start < b := lt_of_le_of_lt (le_max_left _ _) hssb
            rcases List.mem_cons.mp hc with rfl | hmem
            · constructor
              · intro hnil
                have hlen0 : (pySlice text start b).length = 0 := by rw [hnil]; rfl
                unfold pySlice at hlen0
                rw [List.length_take, List.length_drop] at hlen0
                omega
              · unfold pySlice
                rw [List.length_take, List.length_drop]
                omega
            · exact ih b rest hrest c hmem
        | none =>
          rw [hfb] at h
          dsimp only at h
          cases hrest : splitTextAux text cs co fuel (start + cs - co) with
          | none =>
            rw [hrest] at h
            exact Option.noConfusion h
          | some rest =>
            rw [hrest] at h
            simp only [Option.map_some'] at h
            have : pySlice text start (start + cs) :: rest = chunks := Option.some.inj h
            subst this
            rcases List.mem_cons.mp hc with rfl | hmem
            · constructor
              · intro hnil
                have hlen0 : (pySlice text start (start + cs)).length = 0 := by rw [hnil]; rfl
                unfold pySlice at hlen0
                rw [List.length_take, List.length_drop] at hlen0
                omega
              · unfold pySlice
                rw [List.length_take, List.length_drop]
                omega
            · exact ih (start + cs - co) rest hrest c hmem
    · rw [if_neg hstart] at h
      have : ([] : List (List Char)) = chunks := Option.some.inj h
      subst this
      cases hc

theorem pySlice_append_drop {text : List Char} {start b : ℕ} (h : start ≤ b) :
    pySlice text start b ++ text.drop b = text.drop start := by
  unfold pySlice
  have hb : b = start + (b - start) := by omega
  nth_rewrite 2 [hb]
  exact List.drop_take_append_drop text start (b - start)

theorem assemble_singleton (c : List Char) (os : List ℕ) : assemble [c] os = c := by
  simp [assemble]

theorem assemble_cons_cons (c c2 : List Char) (t : List (List Char)) (o : ℕ) (os : List ℕ) :
    assemble (c :: c2 :: t) (o :: os) = c ++ assemble (c2.drop o :: t) os :=
  rfl

theorem assemble_drop {co : ℕ} {c2 : List Char} (h : co ≤ c2.length)
    (t : List (List Char)) (os : List ℕ) :
    assemble (c2.drop co :: t) os = (assemble (c2 :: t) os).drop co := by
  show c2.drop co ++ _ = (c2 ++ _).drop co
  rw [List.drop_append_of_le_length h]

theorem splitTextAux_recon {text : List Char} {cs co : ℕ} (hco : 0 < co) (hcs : co < cs) :
    ∀ fuel start chunks, start < text.length →
      splitTextAux text cs co fuel start = some chunks →
      ∃ os : List ℕ,
        os.length + 1 = chunks.length ∧
          (∀ o ∈ os, o = 0 ∨ o = co) ∧
          assemble chunks os = text.drop start ∧
          (start + co < text.length → noDelim text start (start + co) →
            ∀ c0, chunks.head? = some c0 → co ≤ c0.length) := by
  intro fuel
  induction fuel with
  | zero =>
    intro start chunks hstart h
    rw [splitTextAux, if_pos hstart] at h
    exact Option.noConfusion h
  | succ fuel ih =>
    intro start chunks hstart h
    rw [splitTextAux, if_pos hstart] at h
    dsimp only at h
    by_cases hend : text.length ≤ start + cs
    · rw [if_pos hend] at h
      have : [text.drop start] = chunks := Option.some.inj h
      subst this
      refine ⟨[], rfl, by simp, assemble_singleton _ _, ?_⟩
      intro hlt _ c0 hc0
      have : text.drop start = c0 := Option.some.inj hc0
      subst this
      rw [List.length_drop]
      omega
    · rw [if_neg hend] at h
      cases hfb : findBoundary text (max start (start + cs - co)) (start + cs) with
      | some b =>
        rw [hfb] at h
        dsimp only at h
        cases hrest : splitTextAux text cs co fuel b with
        | none =>
          rw [hrest] at h
          exact Option.noConfusion h
        | some rest =>
          rw [hrest] at h
          simp only [Option.map_some'] at h
          have : pySlice text start b :: rest = chunks := Option.some.inj h
          subst this
          obtain ⟨hssb, hbe, p, c', hp1, hp2, hp3, hpc, hdelim⟩ := findBoundary_eq_some hfb
          have hsb : start < b := lt_of_le_of_lt (le_max_left _ _) hssb
          have hblen : b < text.length := by omega
          obtain ⟨os', hlen', hmem', hasm', _⟩ := ih b rest hblen hrest
          obtain ⟨c2, t, rfl⟩ : ∃ c2 t, rest = c2 :: t := by
            cases rest with
            | nil => simp at hlen'
            | cons c2 t => exact ⟨c2, t, rfl⟩
          refine ⟨0 :: os', by simpa using hlen', ?_, ?_, ?_⟩
          · intro o ho
            rcases List.mem_cons.mp ho with rfl | ho
            · exact Or.inl rfl
            · exact hmem' o ho
          · rw [assemble_cons_cons, List.drop_zero, hasm', pySlice_append_drop (by omega)]
          · intro hlt hnd c0 hc0
            have : pySlice text start b = c0 := Option.some.inj hc0
            subst this
            have hpco : start + co ≤ p := by
              by_contra hc
              push_neg at hc
              have hps : start ≤ p := le_trans (le_max_left _ _) hp1
              have := hnd p hps hc c' hpc
              rcases hdelim with rfl | rfl
              · exact this.1 rfl
              · exact this.2 rfl
            unfold pySlice
            rw [List.length_take, List.length_drop]
            omega
      | none =>
        rw [hfb] at h
        dsimp only at h
        cases hrest : splitTextAux text cs co fuel (start + cs - co) with
        | none =>
          rw [hrest] at h
          exact Option.noConfusion h
        | some rest =>
          rw [hrest] at h
          simp only [Option.map_some'] at h
          have : pySlice text start (start + cs) :: rest = chunks := Option.some.inj h
          subst this
          have hslen : start + cs - co < text.length := by omega
          obtain ⟨os', hlen', hmem', hasm', hhead'⟩ := ih (start + cs - co) rest hslen hrest
          obtain ⟨c2, t, rfl⟩ : ∃ c2 t, rest = c2 :: t := by
            cases rest with
            | nil => simp at hlen'
            | cons c2 t => exact ⟨c2, t, rfl⟩
          have hssmax : max start (start + cs - co) = start + cs - co := by
            apply max_eq_right
            omega
          have hnd : noDelim text (start + cs - co) (start + cs) := by
            have := findBoundary_eq_none hfb
            rwa [hssmax] at this
          have hc2 : co ≤ c2.length := by
            apply hhead' (by omega) ?_ c2 rfl
            intro q hq1 hq2 c hc
            exact hnd q hq1 (by omega) c hc
          refine ⟨co :: os', by simpa using hlen', ?_, ?_, ?_⟩
          · intro o ho
            rcases List.mem_cons.mp ho with rfl | ho
            · exact Or.inr rfl
            · exact hmem' o ho
          · rw [assemble_cons_cons, assemble_drop hc2, hasm', List.drop_drop]
            have heq : start + cs - co + co = start + cs := by omega
            rw [heq, pySlice_append_drop (by omega)]
          · intro hlt _ c0 hc0
            have : pySlice text start (start + cs) = c0 := Option.some.inj hc0
            subst this
            unfold pySlice
            rw [List.length_take, List.length_drop]
            omega

/-- C4: for non-empty input and `0 < chunk_overlap < chunk_size`, the chunks
of `split_text` reconstruct the original text: concatenating them after
deleting, at each adjacent-chunk boundary, the induced overlap — `0`
characters after a cut at a found boundary, exactly `chunk_overlap`
duplicated characters after a forced cut — yields the input exactly. -/
theorem split_text_reconstructs (text : List Char) (cs co : ℕ)
    (hco : 0 < co) (hcs : co < cs) (hne : text ≠ []) :
    ∃ chunks os,
      split_text text cs co = some chunks ∧
        os.length + 1 = chunks.length ∧
        (∀ o ∈ os, o = 0 ∨ o = co) ∧
        assemble chunks os = text := by
  have hlen : 0 < text.length := List.length_pos.mpr hne
  have hsome := @splitTextAux_isSome text cs co hcs text.length 0 (by omega)
  obtain ⟨chunks, hchunks⟩ := Option.isSome_iff_exists.mp hsome
  obtain ⟨os, h1, h2, h3, _⟩ := splitTextAux_recon hco hcs text.length 0 chunks hlen hchunks
  refine ⟨chunks, os, ?_, h1, h2, ?_⟩
  · unfold split_text
    rw [if_neg hne]
    exact hchunks
  · rw [h3, List.drop_zero]

/-- C10 (counterexample): the final remainder chunk is not always shorter
than `chunk_size`.  On `"ab cdef"` with `chunk_size = 4`, `chunk_overlap = 2`
the splitter cuts at the space and then emits the remainder `"cdef"`, whose
length is exactly `chunk_size`. -/
theorem split_text_last_chunk_full :
    split_text "ab cdef".data 4 2 = some ["ab ".data, "cdef".data] ∧
      ¬ ("cdef".data.length < 4) := by
  decide

/-- C10 (amended): for `0 < chunk_overlap < chunk_size`, every chunk returned
by `split_text` is non-empty and at most `chunk_size` characters long
(boundary cuts end at or before the window end, forced cuts are exactly
`chunk_size`, and the final remainder chunk is at most — possibly exactly —
`chunk_size`). -/
theorem split_text_chunk_bounds (text : List Char) (cs co : ℕ)
    (hco : 0 < co) (hcs : co < cs) (chunks : List (List Char))
    (h : split_text text cs co = some chunks) :
    ∀ c ∈ chunks, c ≠ [] ∧ c.length ≤ cs := by
  unfold split_text at h
  by_cases htext : text = []
  · rw [if_pos htext] at h
    cases h
    intro c hc
    cases hc
  · rw [if_neg htext] at h
    exact splitTextAux_chunk_bounds hcs text.length 0 chunks h

theorem pairwise_fst_zip {α β : Type} {R : α → α → Prop} :
    ∀ (l1 : List α) (l2 : List β), l1.Pairwise R →
      (l1.zip l2).Pairwise (fun a b => R a.1 b.1) := by
  intro l1
  induction l1 with
  | nil =>
    intro l2 _
    simp
  | cons x t ih =>
    intro l2 hpw
    cases l2 with
    | nil => simp
    | cons y t2 =>
      obtain ⟨hx, ht⟩ := List.pairwise_cons.mp hpw
      rw [List.zip_cons_cons, List.pairwise_cons]
      constructor
      · intro c hc
        exact hx c.1 (List.of_mem_zip hc).1
      · exact ih t2 ht

theorem pairwise_lex_orderedInsert (x : RankedChunk) :
    ∀ l : List RankedChunk, l.Pairwise rerankLex →
      (∀ b ∈ l, x.rerank_score = b.rerank_score → x.chunk.pos < b.chunk.pos) →
      (List.orderedInsert rerankDesc x l).Pairwise rerankLex := by
  intro l
  induction l with
  | nil =>
    intro _ _
    simp [List.orderedInsert]
  | cons b t ih =>
    intro hpw hx
    obtain ⟨hb, ht⟩ := List.pairwise_cons.mp hpw
    rw [List.orderedInsert]
    by_cases hr : rerankDesc x b
    · rw [if_pos hr]
      rw [List.pairwise_cons]
      refine ⟨?_, hpw⟩
      intro c hc
      rcases List.mem_cons.mp hc with rfl | hct
      · rcases lt_or_eq_of_le hr with hlt | heq
        · exact Or.inl hlt
        · exact Or.inr ⟨heq.symm, hx c (List.mem_cons_self _ _) heq.symm⟩
      · rcases hb c hct with hlt | ⟨heq, _⟩
        · exact Or.inl (lt_of_lt_of_le hlt hr)
        · rcases lt_or_eq_of_le hr with hlt' | heq'
          · refine Or.inl ?_
            calc c.rerank_score = b.rerank_score := heq.symm
              _ < x.rerank_score := hlt'
          · refine Or.inr ⟨by rw [← heq', heq], ?_⟩
            exact hx c (List.mem_cons_of_mem _ hct) (by rw [← heq', heq])
    · rw [if_neg hr]
      have hxb : x.rerank_score < b.rerank_score := not_le.mp hr
      rw [List.pairwise_cons]
      constructor
      · intro c hc
        rcases (List.mem_orderedInsert _).mp hc with rfl | hct
        · exact Or.inl hxb
        · exact hb c hct
      · exact ih ht (fun b' hb' he => hx b' (List.mem_cons_of_mem _ hb') he)

theorem pairwise_lex_insertionSort :
    ∀ l : List RankedChunk, l.Pairwise (fun a b => a.chunk.pos < b.chunk.pos) →
      (List.insertionSort rerankDesc l).Pairwise rerankLex := by
  intro l
  induction l with
  | nil =>
    intro _
    simp [List.insertionSort]
  | cons x t ih =>
    intro hpw
    obtain ⟨hx, ht⟩ := List.pairwise_cons.mp hpw
    rw [List.insertionSort]
    apply pairwise_lex_orderedInsert
    · exact ih ht
    · intro b hb _
      exact hx b ((List.mem_insertionSort _).mp hb)

/-- C5: `rerank` on an empty chunk list returns the empty list without
invoking the cross-encoder (the `Bool` component records a model call); on
any input its output has length `min top_k (number of input chunks)`, is
sorted by descending `rerank_score`, and — whenever the input chunks carry
strictly increasing positions — ties are broken stably, in input order
(`rerankLex`). -/
theorem rerank_spec (model : List Char → List Char → ℚ) (query : List Char)
    (chunks : List PChunk) (top_k : ℕ) :
    (chunks = [] → rerank model query chunks top_k = ([], false)) ∧
      (rerank model query chunks top_k).1.length = min top_k chunks.length ∧
      (rerank model query chunks top_k).1.Pairwise rerankDesc ∧
      (chunks.Pairwise (fun a b => a.pos < b.pos) →
        (rerank model query chunks top_k).1.Pairwise rerankLex) := by
  by_cases hc : chunks = []
  · subst hc
    refine ⟨fun _ => rfl, ?_, ?_, ?_⟩
    · show (0 : ℕ) = min top_k 0
      simp
    · exact List.Pairwise.nil
    · intro _
      exact List.Pairwise.nil
  · have hre : rerank model query chunks top_k =
        ((List.insertionSort rerankDesc
            ((chunks.zip
                ((chunks.map (fun c => (query, c.content))).map
                  (fun p => model p.1 p.2))).map
              (fun cs => RankedChunk.mk cs.1 cs.2))).take top_k, true) := by
      rw [rerank, if_neg hc]
    have hscores_len :
        ((chunks.map (fun c => (query, c.content))).map (fun p => model p.1 p.2)).length =
          chunks.length := by
      simp
    refine ⟨fun h => absurd h hc, ?_, ?_, ?_⟩
    · rw [hre]
      simp [List.length_take, List.length_insertionSort, List.length_zip, hscores_len]
    · rw [hre]
      exact ((List.sorted_insertionSort rerankDesc _).sublist (List.take_sublist _ _))
    · intro hpos
      rw [hre]
      apply List.Pairwise.sublist (List.take_sublist _ _)
      apply pairwise_lex_insertionSort
      refine List.pairwise_map.mpr ?_
      exact pairwise_fst_zip chunks _ hpos

/-- Witness for the `rerank` theorem: three chunks at positions 0, 1, 2
scored by content length (`"aa"` and `"cc"` tie at score 2), `top_k = 2`. -/
theorem rerank_spec_witness :
    (([] : List PChunk) ≠ [⟨"aa".data, 0⟩, ⟨"b".data, 1⟩, ⟨"cc".data, 2⟩]) ∧
      (rerank (fun _ c => (c.length : ℚ)) "q".data
          [⟨"aa".data, 0⟩, ⟨"b".data, 1⟩, ⟨"cc".data, 2⟩] 2).1.length = min 2 3 ∧
      (rerank (fun _ c => (c.length : ℚ)) "q".data
          [⟨"aa".data, 0⟩, ⟨"b".data, 1⟩, ⟨"cc".data, 2⟩] 2).1.Pairwise rerankDesc ∧
      (rerank (fun _ c => (c.length : ℚ)) "q".data
          [⟨"aa".data, 0⟩, ⟨"b".data, 1⟩, ⟨"cc".data, 2⟩] 2).1.Pairwise rerankLex :=
  ⟨by decide,
    (rerank_spec (fun _ c => (c.length : ℚ)) "q".data
        [⟨"aa".data, 0⟩, ⟨"b".data, 1⟩, ⟨"cc".data, 2⟩] 2).2.1,
    (rerank_spec (fun _ c => (c.length : ℚ)) "q".data
        [⟨"aa".data, 0⟩, ⟨"b".data, 1⟩, ⟨"cc".data, 2⟩] 2).2.2.1,
    (rerank_spec (fun _ c => (c.length : ℚ)) "q".data
        [⟨"aa".data, 0⟩, ⟨"b".data, 1⟩, ⟨"cc".data, 2⟩] 2).2.2.2 (by decide)⟩

theorem retrieve_filter_count {α : Type} (chunks : List α) :
    ∀ (scores : List ℚ) (indices : List ℤ), scores.length = indices.length →
      (∀ i ∈ indices, i = -1 ∨ (0 ≤ i ∧ i.toNat < chunks.length)) →
      (retrieve chunks scores indices).length =
          (indices.filter (fun i => !(i = -1 : Bool))).length ∧
        ∀ r ∈ retrieve chunks scores indices,
          ∃ j : ℕ, j < chunks.length ∧ ((j : ℤ) ∈ indices ∧ ¬((j : ℤ) = -1)) ∧
            chunks[j]? = some r.chunk ∧ (r.score, (j : ℤ)) ∈ scores.zip indices := by
  intro scores
  induction scores with
  | nil =>
    intro indices hlen hvalid
    have : indices = [] := List.eq_nil_of_length_eq_zero hlen.symm
    subst this
    exact ⟨rfl, fun r hr => absurd hr (by simp [retrieve])⟩
  | cons s st ih =>
    intro indices hlen hvalid
    cases indices with
    | nil => simp at hlen
    | cons i it =>
      have hlen' : st.length = it.length := by simpa using hlen
      have hvalid' : ∀ x ∈ it, x = -1 ∨ (0 ≤ x ∧ x.toNat < chunks.length) :=
        fun x hx => hvalid x (List.mem_cons_of_mem _ hx)
      obtain ⟨hcount, hmem⟩ := ih it hlen' hvalid'
      by_cases hneg : i = -1
      · subst hneg
        have hre : retrieve chunks (s :: st) (-1 :: it) = retrieve chunks st it := by
          unfold retrieve
          rw [List.zip_cons_cons, List.filterMap_cons]
          simp
        constructor
        · rw [hre, hcount]
          simp
        · intro r hr
          rw [hre] at hr
          obtain ⟨j, hj1, ⟨hj2, hj3⟩, hj4, hj5⟩ := hmem r hr
          exact ⟨j, hj1, ⟨List.mem_cons_of_mem _ hj2, hj3⟩, hj4, by
            rw [List.zip_cons_cons]
            exact List.mem_cons_of_mem _ hj5⟩
      · rcases hvalid i (List.mem_cons_self _ _) with h1 | ⟨hge, hlt⟩
        · exact absurd h1 hneg
        have hget : chunks[i.toNat]? = some chunks[i.toNat] :=
          List.getElem?_eq_getElem hlt
        have hre : retrieve chunks (s :: st) (i :: it) =
            ⟨chunks[i.toNat], s⟩ :: retrieve chunks st it := by
          unfold retrieve
          rw [List.zip_cons_cons, List.filterMap_cons]
          simp [hneg, hget]
        constructor
        · rw [hre]
          have : (i :: it).filter (fun x => !(x = -1 : Bool)) =
              i :: it.filter (fun x => !(x = -1 : Bool)) := by
            simp [List.filter_cons, hneg]
          rw [this]
          simp [hcount]
        · intro r hr
          rw [hre] at hr
          rcases List.mem_cons.mp hr with rfl | hr'
          · refine ⟨i.toNat, hlt, ⟨?_, ?_⟩, hget, ?_⟩
            · rw [Int.toNat_of_nonneg hge]
              exact List.mem_cons_self _ _
            · rw [Int.toNat_of_nonneg hge]
              exact hneg
            · rw [List.zip_cons_cons, Int.toNat_of_nonneg hge]
              exact List.mem_cons_self _ _
          · obtain ⟨j, hj1, ⟨hj2, hj3⟩, hj4, hj5⟩ := hmem r hr'
            exact ⟨j, hj1, ⟨List.mem_cons_of_mem _ hj2, hj3⟩, hj4, by
              rw [List.zip_cons_cons]
              exact List.mem_cons_of_mem _ hj5⟩

theorem retrieve_scores_sublist {α : Type} (chunks : List α) :
    ∀ (scores : List ℚ) (indices : List ℤ),
      ((retrieve chunks scores indices).map (fun r => r.score)).Sublist scores := by
  intro scores
  induction scores with
  | nil =>
    intro indices
    simp [retrieve]
  | cons s st ih =>
    intro indices
    cases indices with
    | nil =>
      simp [retrieve]
    | cons i it =>
      unfold retrieve
      rw [List.zip_cons_cons, List.filterMap_cons]
      by_cases hneg : i = -1
      · simp only [hneg, if_pos rfl]
        exact (ih it).cons s
      · simp only [if_neg hneg]
        cases hget : chunks[i.toNat]? with
        | none =>
          simp only [Option.map_none']
          exact (ih it).cons s
        | some c =>
          simp only [Option.map_some', List.map_cons]
          exact (ih it).cons₂ s

/-- C1: under the FAISS search contract, `retrieve` returns at most `top_k`
results — exactly one per non-sentinel index, so every `-1` sentinel is
filtered out rather than turned into a result; each returned result carries
the chunk stored at the returned ordinal position of the doc-store list
together with the raw similarity score it was paired with; and results come
back in descending score order.  This holds for every doc-store size,
including a single-chunk corpus (see the witness). -/
theorem retrieve_spec {α : Type} (chunks : List α) (scores : List ℚ) (indices : List ℤ)
    (top_k : ℕ) (h : FaissSearchOutput chunks.length top_k scores indices) :
    (retrieve chunks scores indices).length ≤ top_k ∧
      (retrieve chunks scores indices).length =
        (indices.filter (fun i => !(i = -1 : Bool))).length ∧
      (∀ r ∈ retrieve chunks scores indices,
        ∃ j : ℕ, j < chunks.length ∧ ((j : ℤ) ∈ indices ∧ ¬((j : ℤ) = -1)) ∧
          chunks[j]? = some r.chunk ∧ (r.score, (j : ℤ)) ∈ scores.zip indices) ∧
      (retrieve chunks scores indices).Pairwise (fun a b => b.score ≤ a.score) := by
  obtain ⟨hslen, hilen, hvalid, hsorted⟩ := h
  obtain ⟨hcount, hmem⟩ :=
    retrieve_filter_count chunks scores indices (by omega) hvalid
  refine ⟨?_, hcount, hmem, ?_⟩
  · rw [hcount]
    calc (indices.filter (fun i => !(i = -1 : Bool))).length ≤ indices.length :=
          List.length_filter_le _ _
      _ = top_k := hilen
  · have hsub := retrieve_scores_sublist chunks scores indices
    have hps := hsorted.sublist hsub
    exact List.pairwise_map.mp hps

/-- Witness for the `retrieve` theorem on the degenerate single-chunk corpus:
one stored chunk, `top_k = 5`, FAISS returning one hit and four `-1`
sentinels. -/
theorem retrieve_spec_witness :
    FaissSearchOutput ([["c0".data]] : List (List (List Char))).length 5
        [1, 0, 0, 0, 0] [0, -1, -1, -1, -1] ∧
      ((retrieve [["c0".data]] [1, 0, 0, 0, 0] [0, -1, -1, -1, -1]).length ≤ 5 ∧
        (retrieve [["c0".data]] [1, 0, 0, 0, 0] [0, -1, -1, -1, -1]).length =
          (([0, -1, -1, -1, -1] : List ℤ).filter (fun i => !(i = -1 : Bool))).length ∧
        (∀ r ∈ retrieve [["c0".data]] [1, 0, 0, 0, 0] [0, -1, -1, -1, -1],
          ∃ j : ℕ, j < ([["c0".data]] : List (List (List Char))).length ∧
            ((j : ℤ) ∈ ([0, -1, -1, -1, -1] : List ℤ) ∧ ¬((j : ℤ) = -1)) ∧
            ([["c0".data]] : List (List (List Char)))[j]? = some r.chunk ∧
            (r.score, (j : ℤ)) ∈ ([1, 0, 0, 0, 0] : List ℚ).zip [0, -1, -1, -1, -1]) ∧
        (retrieve [["c0".data]] [1, 0, 0, 0, 0] [0, -1, -1, -1, -1]).Pairwise
          (fun a b => b.score ≤ a.score)) :=
  have hf : FaissSearchOutput ([["c0".data]] : List (List (List Char))).length 5
      [1, 0, 0, 0, 0] [0, -1, -1, -1, -1] :=
    ⟨rfl, rfl, by decide, by norm_num [List.pairwise_cons]⟩
  ⟨hf, retrieve_spec [["c0".data]] [1, 0, 0, 0, 0] [0, -1, -1, -1, -1] 5 hf⟩

/-- Witness for the termination theorem at `chunk_size = 4`,
`chunk_overlap = 2` on `"ab cdef"`. -/
theorem split_text_terminates_witness :
    (0 < 2 ∧ 2 < 4) ∧ (split_text "ab cdef".data 4 2).isSome :=
  ⟨by decide, (split_text_terminates "ab cdef".data 4 2 (by decide) (by decide)).2⟩

/-- Witness for the reconstruction theorem at `chunk_size = 4`,
`chunk_overlap = 2` on `"ab cdef"`. -/
theorem split_text_reconstructs_witness :
    (0 < 2 ∧ 2 < 4 ∧ "ab cdef".data ≠ []) ∧
      ∃ chunks os,
        split_text "ab cdef".data 4 2 = some chunks ∧
          os.length + 1 = chunks.length ∧
          (∀ o ∈ os, o = 0 ∨ o = 2) ∧
          assemble chunks os = "ab cdef".data :=
  ⟨by decide, split_text_reconstructs "ab cdef".data 4 2 (by decide) (by decide) (by decide)⟩

/-- Witness for the chunk-bounds theorem at `chunk_size = 4`,
`chunk_overlap = 2` on `"ab cdef"`. -/
theorem split_text_chunk_bounds_witness :
    (0 < 2 ∧ 2 < 4 ∧ split_text "ab cdef".data 4 2 = some ["ab ".data, "cdef".data]) ∧
      ∀ c ∈ ["ab ".data, "cdef".data], c ≠ [] ∧ c.length ≤ 4 :=
  ⟨by decide,
    split_text_chunk_bounds "ab cdef".data 4 2 (by decide) (by decide) _ (by decide)⟩

end RagSpec
